import Mathlib

/-!
Verification of the climux command-line parsing library.

Command-line tokens are modelled as lists of characters (`Token`).  The
in-repository modules `genbu/cli.py` and `tortoise/reader.py` are embedded
directly; the modules that the repository uses but that are not part of the
source tree (`genbu/normalize.py`, `genbu/combinators.py`, `genbu/forward.py`,
`infer_parser.py`) are modelled from the specification, as indicated by the
doc comments of the corresponding definitions.
-/

/-- A raw command-line token, modelled as its list of characters. -/
abbrev Token := List Char

/-- The error taxonomy of the library: unknown or ambiguous option spellings,
a parser applied to a non-matching token or queue (CantParse), and a required
callback parameter absent from the final mapping (MissingArgument). -/
inductive Err where
  | unknownOption (tok : Token)
  | cantParse
  | missingArgument (name : Token)
deriving DecidableEq, Repr

/-- Upper bound on how many argument tokens an option consumes:
a natural number or infinity (tortoise/reader.py uses float inf). -/
inductive Count where
  | fin (n : Nat)
  | inf
deriving DecidableEq, Repr

/-- Decrement a count; infinity stays infinite. -/
def Count.dec : Count → Count
  | .fin (n + 1) => .fin n
  | .fin 0 => .fin 0
  | .inf => .inf

/-- The Python truth test `count > 0` used in reader.take. -/
def Count.isPos : Count → Bool
  | .fin 0 => false
  | .fin (_ + 1) => true
  | .inf => true

/-- Whether a token looks like an option, that is, begins with a dash
(Python `token.startswith("-")`). -/
def startsDash : Token → Bool
  | '-' :: _ => true
  | _ => false

/-- First-match association lookup, the semantics of a Python dict read
when keys are unique. -/
def lookupA {β : Type} : List (Token × β) → Token → Option β
  | [], _ => none
  | (k, v) :: rest, t => if k = t then some v else lookupA rest t

/-- Insertion into a Python dict: an existing key keeps its position but
takes the new value, a new key is appended at the end. -/
def dictInsert {α β : Type} [DecidableEq α] : List (α × β) → α → β → List (α × β)
  | [], k, v => [(k, v)]
  | (k', v') :: rest, k, v =>
    if k' = k then (k, v) :: rest else (k', v') :: dictInsert rest k v

/-- Building a Python dict from a list of key-value pairs, left to right:
first insertion fixes the position of a key, the last value wins. -/
def pyDict {α β : Type} [DecidableEq α] (l : List (α × β)) : List (α × β) :=
  l.foldl (fun d kv => dictInsert d kv.1 kv.2) []

/-- Embedding of tortoise/reader.py take: pop tokens from the front of the
deque while the deque is nonempty, the front token does not start with a dash
and the count is positive; return the captured tokens and the remainder. -/
def take : Count → List Token → List Token × List Token
  | _, [] => ([], [])
  | cnt, t :: rest =>
    if startsDash t then ([], t :: rest)
    else if cnt.isPos then
      let (captured, remaining) := take cnt.dec rest
      (t :: captured, remaining)
    else ([], t :: rest)

namespace Tortoise

/-- Embedding of tortoise/reader.py OptArgSpec.expand: filter the declared
long options (spelled without dashes) for those having the given string as a
prefix; exactly one candidate is returned, otherwise UnknownOption names the
offending token with its dashes restored. -/
def expand (longOptions : List Token) (pre : Token) : Except Err Token :=
  match longOptions.filter (fun o => pre.isPrefixOf o) with
  | [o] => .ok o
  | _ => .error (.unknownOption (['-', '-'] ++ pre))

/-- Accumulator-passing core of tortoise/reader.py Merger._merge_one; the
accumulator models the Python variable that starts as None. -/
def mergeOneAux {α β : Type} [DecidableEq α]
    (name : α) (names : List α) (using' : β → β → β) :
    List (α × β) → Option β → List (α × β)
  | [], none => []
  | [], some acc => [(name, acc)]
  | (opt, args) :: rest, acc =>
    if opt = name ∨ opt ∈ names then
      mergeOneAux name names using' rest
        (some (match acc with | none => args | some a => using' a args))
    else
      (opt, args) :: mergeOneAux name names using' rest acc

/-- Embedding of tortoise/reader.py Merger._merge_one: occurrences whose
spelling equals the canonical name or one of the other names are folded with
the combining function and re-emitted once at the end under the canonical
name; everything else passes through in order. -/
def merge_one {α β : Type} [DecidableEq α]
    (opts : List (α × β)) (name : α) (names : List α)
    (using' : β → β → β) : List (α × β) :=
  mergeOneAux name names using' opts none

end Tortoise

namespace Genbu

/-- Embedding of genbu/cli.py CLInterface.expand: a spelling that does not
begin with a double dash must be a declared option verbatim; otherwise the
declared option spellings are filtered for those having the given string as
a prefix and exactly one candidate must remain. -/
def expand (options : List Token) (pre : Token) : Except Err Token :=
  if ¬ pre.take 2 = ['-', '-'] then
    if pre ∈ options then .ok pre else .error (.unknownOption pre)
  else
    match options.filter (fun o => pre.isPrefixOf o) with
    | [o] => .ok o
    | _ => .error (.unknownOption pre)

/-- Accumulator-passing core of genbu/cli.py rename; the accumulator models
the Python sentinel variable final that starts as a fresh object. -/
def renameAux {α β : Type} [DecidableEq α]
    (name : α) (names : List α) (resolve : β → β → β) :
    List (α × β) → Option β → List (α × β)
  | [], none => []
  | [], some final => [(name, final)]
  | (param, value) :: rest, final =>
    if param ∈ names then
      renameAux name names resolve rest
        (some (match final with | none => value | some f => resolve f value))
    else
      (param, value) :: renameAux name names resolve rest final

/-- Embedding of genbu/cli.py rename: occurrences whose spelling lies in the
set of names are folded left to right with the resolver and re-emitted once at
the end under the canonical name; everything else passes through in order. -/
def rename {α β : Type} [DecidableEq α]
    (optargs : List (α × β)) (name : α) (names : List α)
    (resolve : β → β → β) : List (α × β) :=
  renameAux name names resolve optargs none

/-- A node of the subcommand tree of genbu/cli.py CLInterface, carrying its
name, the value its callback returns (callbacks of the routing claims take no
arguments, so a constant return value models them), and its subparsers. -/
inductive CLIContext where
  | mk (name : String) (result : String) (subs : List CLIContext)

/-- Name of a CLIContext. -/
def CLIContext.name : CLIContext → String
  | .mk n _ _ => n

/-- Callback result of a CLIContext. -/
def CLIContext.result : CLIContext → String
  | .mk _ r _ => r

/-- Subparsers of a CLIContext. -/
def CLIContext.subs : CLIContext → List CLIContext
  | .mk _ _ s => s

/-- The scan of the subparsers dict in the routing loop of CLInterface.parse:
the first subparser whose name equals the token. -/
def findSub (subs : List CLIContext) (tok : String) : Option CLIContext :=
  subs.find? (fun s => s.name = tok)

/-- Embedding of the command pass of genbu/cli.py CLInterface.parse
(lines 117-128): while the deque is nonempty, scan self.subparsers for a
subparser named like the front token; append it to the route and pop the
token, stopping at the first token that matches none.  Every iteration
consults the subparsers of self, the object parse was invoked on.  Returns
the route and the remaining deque. -/
def parseCommands (self : CLIContext) : List String → List CLIContext × List String
  | [] => ([], [])
  | tok :: rest =>
    match findSub self.subs tok with
    | some sub =>
      let (route, remaining) := parseCommands self rest
      (sub :: route, remaining)
    | none => ([], tok :: rest)

/-- The routing the specification describes: consume leading tokens while
each matches a child of the most recently matched context, descending one
level per match; the deepest matched context is returned with the remaining
tokens.  Stated from the spec for comparison with parseCommands. -/
def routeDescend : CLIContext → List String → CLIContext × List String
  | ctx, [] => (ctx, [])
  | ctx, tok :: rest =>
    match findSub ctx.subs tok with
    | some sub => routeDescend sub rest
    | none => (ctx, tok :: rest)

/-- The Namespace of genbu/cli.py, restricted to what the routing claims
need: the CLIContext whose callback bind will invoke. -/
structure GNamespace where
  cli : CLIContext

/-- Embedding of genbu/cli.py CLInterface.parse for contexts that declare no
Params.  Modelled from the spec: genbu/normalize.py and genbu/combinators.py
are absent from src, so parse_optargs is modelled for a context without
Params, where any remaining token is an unknown option or an unconsumed
positional and an empty remainder yields the empty mapping.  The route and
the Namespace follow cli.py lines 117-132 exactly: options and arguments are
parsed against route[-1], while the Namespace receives route[0] if the route
is nonempty, else self. -/
def parseNs (self : CLIContext) (argv : List String) : Except Err GNamespace :=
  let (route, deque) := parseCommands self argv
  match deque with
  | t :: _ => .error (.unknownOption t.data)
  | [] => .ok ⟨(route.head?).getD self⟩

/-- Embedding of genbu/cli.py CLInterface.__call__ for contexts without
Params: parse argv and run the callback of the Namespace's context. -/
def callCli (self : CLIContext) (argv : List String) : Except Err String :=
  match parseNs self argv with
  | .ok ns => .ok ns.cli.result
  | .error e => .error e

end Genbu

/-- Option vocabulary of one parsing context, as the classifier needs it.
Modelled from the spec: it is the OptArgSpec of the data model, the set of
recognized short and long option spellings plus, per spelling, an upper
bound on how many following tokens it consumes. -/
structure ClassSpec where
  shorts : List Char
  longs : List Token
  countS : Char → Count
  countL : Token → Count

/-- Long-option prefix expansion inside the classifier.  Modelled from the
spec: expansion succeeds only if exactly one known long option has the given
string as a prefix; zero or multiple matches raise an unknown or ambiguous
option error naming the offending token. -/
def ClassSpec.expandL (spec : ClassSpec) (pre : Token) : Except Err Token :=
  match spec.longs.filter (fun o => pre.isPrefixOf o) with
  | [o] => .ok o
  | _ => .error (.unknownOption (['-', '-'] ++ pre))

/-- Split a token once on the first equals sign: the part before it and,
when one occurs, the part after it.  Modelled from the spec: a double-dash
token is split once on an equals sign if present. -/
def splitOnEq : List Char → List Char × Option (List Char)
  | [] => ([], none)
  | c :: rest =>
    if c = '=' then ([], some rest)
    else
      let (before, after) := splitOnEq rest
      (c :: before, after)

/-- One classified option occurrence: its spelling as the pipeline will see
it (with dashes) and the argument tokens captured for it, plus positional
tokens, in encounter order. -/
structure Normalized where
  options : List (Token × List Token)
  arguments : List Token
deriving DecidableEq, Repr

/-- Scan the characters of a single-dash token as stacked short options.
Modelled from the spec: a stacked short option with a zero-argument bound
contributes a flag occurrence and the scan continues; one with a nonzero
bound consumes the rest of the current token as its single captured argument
and stops scanning; if no characters remain to claim, the occurrence is
returned as pending so subsequent tokens can be captured per its bound; a
character that is no declared short option is an UnknownOption.  Returns the
finished occurrences and the pending occurrence, if any. -/
def scanShorts (spec : ClassSpec) :
    List Char → Except Err (List (Token × List Token) × Option (Token × Count))
  | [] => .ok ([], none)
  | c :: cs =>
    if c ∈ spec.shorts then
      match spec.countS c with
      | .fin 0 =>
        (scanShorts spec cs).map (fun (occs, pending) => ((['-', c], []) :: occs, pending))
      | cnt =>
        if cs = [] then .ok ([], some (['-', c], cnt))
        else .ok ([(['-', c], [cs])], none)
    else .error (.unknownOption ['-', c])

/-- Fuelled core of the classifier; the fuel only serves the termination
argument and any fuel of at least the length of the token list computes the
classification (classifyGo_fuel below). -/
def classifyGo (spec : ClassSpec) : Nat → List Token → Except Err Normalized
  | _, [] => .ok ⟨[], []⟩
  | 0, _ :: _ => .error .cantParse
  | fuel + 1, tok :: rest =>
    if tok.take 2 = ['-', '-'] then
      match splitOnEq (tok.drop 2) with
      | (nm, some arg) =>
        match spec.expandL nm with
        | .error e => .error e
        | .ok full =>
          match classifyGo spec fuel rest with
          | .error e => .error e
          | .ok r => .ok ⟨(['-', '-'] ++ full, [arg]) :: r.options, r.arguments⟩
      | (nm, none) =>
        match spec.expandL nm with
        | .error e => .error e
        | .ok full =>
          let (captured, rest') := take (spec.countL full) rest
          match classifyGo spec fuel rest' with
          | .error e => .error e
          | .ok r => .ok ⟨(['-', '-'] ++ full, captured) :: r.options, r.arguments⟩
    else if tok.take 1 = ['-'] ∧ 2 ≤ tok.length then
      match scanShorts spec (tok.drop 1) with
      | .error e => .error e
      | .ok (occs, none) =>
        match classifyGo spec fuel rest with
        | .error e => .error e
        | .ok r => .ok ⟨occs ++ r.options, r.arguments⟩
      | .ok (occs, some (sp, cnt)) =>
        let (captured, rest') := take cnt rest
        match classifyGo spec fuel rest' with
        | .error e => .error e
        | .ok r => .ok ⟨occs ++ (sp, captured) :: r.options, r.arguments⟩
    else
      match classifyGo spec fuel rest with
      | .error e => .error e
      | .ok r => .ok ⟨r.options, tok :: r.arguments⟩

/-- The token classifier.  Modelled from the spec: genbu/normalize.py is
absent from src; this is the one left-to-right pass of the Token Reader that
splits a token stream into option occurrences with their captured argument
tokens and leftover positional tokens, handling the double-dash form with
optional equals sign, stacked short options and per-option capture bounds. -/
def classify (spec : ClassSpec) (argv : List Token) : Except Err Normalized :=
  classifyGo spec argv.length argv

/-- Value of one decimal digit string, most significant first. -/
def digitsToNat (ds : List Char) : Nat :=
  ds.foldl (fun a c => a * 10 + (c.toNat - '0'.toNat)) 0

/-- Integer conversion of a raw token.  Modelled from the spec: numeric
scalar parsers delegate to the standard numeric parse of the language and
turn any failure into CantParse; modelled for plain decimal numerals with an
optional leading minus sign. -/
def parseIntTok : Token → Option Int
  | '-' :: ds => if ds ≠ [] ∧ ds.all Char.isDigit then some (-(digitsToNat ds : Int)) else none
  | ds => if ds ≠ [] ∧ ds.all Char.isDigit then some ((digitsToNat ds : Int)) else none

namespace Genbu

/-- The One combinator at integer values.  Modelled from the spec:
genbu/combinators.py is absent from src; One fails with CantParse if the
queue is empty, otherwise pops exactly one token and applies the token
parser, whose failure is CantParse. -/
def One (p : Token → Option Int) : List Token → Except Err (Int × List Token)
  | [] => .error .cantParse
  | t :: rest =>
    match p t with
    | some v => .ok (v, rest)
    | none => .error .cantParse

/-- A declared parameter of a genbu CLInterface: canonical name, option or
positional spellings, the token-queue parser of its value, the capture bound
the classifier uses for its option spellings, and the resolver combining
repeated occurrences.  Values are integers, the value type every claim about
the pipeline exercises. -/
structure Param where
  name : Token
  optargs : List Token
  parse : List Token → Except Err (Int × List Token)
  count : Count
  resolve : Int → Int → Int

/-- The options dict a CLInterface builds from its params (cli.py lines
44-52): every dash-prefixed spelling maps to its owning param, later params
overriding earlier ones with the same spelling. -/
def optionsOf (params : List Param) : List (Token × Param) :=
  params.foldl
    (fun acc p =>
      p.optargs.foldl
        (fun a oa => if startsDash oa then dictInsert a oa p else a) acc)
    []

/-- The arguments dict a CLInterface builds from its params (cli.py lines
44-52): every spelling not starting with a dash maps to its owning param. -/
def argumentsOf (params : List Param) : List (Token × Param) :=
  params.foldl
    (fun acc p =>
      p.optargs.foldl
        (fun a oa => if startsDash oa then a else dictInsert a oa p) acc)
    []

/-- The classifier vocabulary derived from a list of params.  Modelled from
the spec: normalize receives the params and knows each option spelling and
its capture bound. -/
def specOf (params : List Param) : ClassSpec :=
  let opts := optionsOf params
  { shorts := opts.filterMap (fun kv =>
      match kv.1 with
      | ['-', c] => if c = '-' then none else some c
      | _ => none)
  , longs := opts.filterMap (fun kv =>
      match kv.1 with
      | '-' :: '-' :: nm => some nm
      | _ => none)
  , countS := fun c =>
      match lookupA opts ['-', c] with
      | some p => p.count
      | none => .fin 0
  , countL := fun nm =>
      match lookupA opts (['-', '-'] ++ nm) with
      | some p => p.count
      | none => .fin 0 }

/-- Embedding of genbu/cli.py CLInterface.parse_opt: expand the spelling
against the options dict, look up the owning param, parse the captured
tokens with its combinator and return the expanded name, the value and the
unparsed tokens. -/
def parse_opt (options : List (Token × Param)) (sp : Token) (args : List Token) :
    Except Err (Token × Int × List Token) :=
  match expand (options.map Prod.fst) sp with
  | .error e => .error e
  | .ok name =>
    match lookupA options name with
    | none => .error (.unknownOption name)
    | some param =>
      match param.parse args with
      | .error e => .error e
      | .ok (v, unused) => .ok (name, v, unused)

/-- The option loop of genbu/cli.py parse_optargs (lines 155-158): parse
each classified occurrence with parse_opt, collecting the name-value pairs
and extending the positional argument list with every unparsed token. -/
def processOpts (options : List (Token × Param)) :
    List (Token × List Token) → Except Err (List (Token × Int) × List Token)
  | [] => .ok ([], [])
  | (sp, captured) :: rest =>
    match parse_opt options sp captured with
    | .error e => .error e
    | .ok (name, v, unused) =>
      match processOpts options rest with
      | .error e => .error e
      | .ok (optargs, extra) => .ok ((name, v) :: optargs, unused ++ extra)

/-- The argument loop of genbu/cli.py parse_optargs (lines 160-162): each
positional param parses its value from the front of the shared deque of
positional tokens. -/
def processArgs :
    List (Token × Param) → List Token → Except Err (List (Token × Int) × List Token)
  | [], deque => .ok ([], deque)
  | (name, param) :: rest, deque =>
    match param.parse deque with
    | .error e => .error e
    | .ok (v, deque') =>
      match processArgs rest deque' with
      | .error e => .error e
      | .ok (optargs, deque'') => .ok ((name, v) :: optargs, deque'')

/-- Embedding of genbu/cli.py Renamer.__call__: apply rename once per param
with its canonical name, its spellings and its resolver, then convert the
pair list into a dict. -/
def Renamer (params : List Param) (optargs : List (Token × Int)) : List (Token × Int) :=
  pyDict (params.foldl (fun oa p => rename oa p.name p.optargs p.resolve) optargs)

/-- Embedding of genbu/cli.py check_arguments.  Modelled from the spec:
genbu/forward.py (to_args_kwargs, MissingArgument) and the signature-based
trial binding are absent from src; the callback's parameter shape is its
list of required parameter names and the trial binding succeeds exactly when
every required name has a value, the first absent one being reported in a
MissingArgument error; on success the mapping is returned unchanged. -/
def check_arguments (optargs : List (Token × Int)) (required : List Token) :
    Except Err (List (Token × Int)) :=
  match required.find? (fun r => (lookupA optargs r).isNone) with
  | some r => .error (.missingArgument r)
  | none => .ok optargs

/-- Embedding of genbu/cli.py CLInterface.parse_optargs: classify argv, parse
the option occurrences, parse the positional params from the leftover tokens
extended with the unparsed option tokens, reject a nonempty remainder as an
unknown option, rename and merge the occurrences per param and check the
result against the callback's required parameters. -/
def parse_optargs (params : List Param) (required : List Token) (argv : List Token) :
    Except Err (List (Token × Int)) :=
  match classify (specOf params) argv with
  | .error e => .error e
  | .ok nz =>
    match processOpts (optionsOf params) nz.options with
    | .error e => .error e
    | .ok (optargs₁, extra) =>
      match processArgs (argumentsOf params) (nz.arguments ++ extra) with
      | .error e => .error e
      | .ok (optargs₂, deque) =>
        match deque with
        | t :: _ => .error (.unknownOption t)
        | [] => check_arguments (Renamer params (optargs₁ ++ optargs₂)) required

end Genbu

/-- Declared type shape of the inference engine.  Modelled from the spec:
infer_parser.py is absent from src; the shapes the claims exercise are kept
(null, bool, integer scalars, ordered unions and an unsupported construct
that can never be inferred). -/
inductive TypeShape where
  | null
  | bool
  | int
  | union (alts : List TypeShape)
  | unsupported

/-- A typed value produced by an inferred token parser. -/
inductive Value where
  | none
  | bool (b : Bool)
  | int (z : Int)
deriving DecidableEq, Repr

/-- The null conversion primitive.  Modelled from the spec: parse_none
succeeds only on the empty string and the literal None. -/
def parse_none (t : Token) : Option Value :=
  if t = [] ∨ t = "None".data then some .none else none

/-- The boolean conversion primitive.  Modelled from the spec: parse_bool
accepts exactly true, True and 1 as true and false, False and 0 as false;
every other string is CantParse. -/
def parse_bool (t : Token) : Option Value :=
  if t = "true".data ∨ t = "True".data ∨ t = "1".data then some (.bool true)
  else if t = "false".data ∨ t = "False".data ∨ t = "0".data then some (.bool false)
  else none

/-- The integer conversion primitive as a Value parser. -/
def parseIntV (t : Token) : Option Value :=
  (parseIntTok t).map .int

/-- Sequence a list of optional parsers: some list exactly when every
element is some, in order. -/
def allSome {γ : Type} : List (Option γ) → Option (List γ)
  | [] => some []
  | some x :: rest => (allSome rest).map (fun xs => x :: xs)
  | none :: _ => none

/-- Try token parsers in declared order and return the first success. -/
def firstSome : List (Token → Option Value) → Token → Option Value
  | [], _ => none
  | p :: ps, t =>
    match p t with
    | some v => some v
    | none => firstSome ps t

mutual

/-- The type-directed inference engine.  Modelled from the spec: derive a
parser per union alternative, failing the whole inference if any alternative
cannot be inferred; the composite parser tries the alternatives in declared
order and returns the first success, or fails if all alternatives fail. -/
def infer : TypeShape → Option (Token → Option Value)
  | .null => some parse_none
  | .bool => some parse_bool
  | .int => some parseIntV
  | .unsupported => none
  | .union alts => (inferAll alts).map firstSome

/-- Derive one parser per alternative, in order, failing if any alternative
fails to infer. -/
def inferAll : List TypeShape → Option (List (Token → Option Value))
  | [] => some []
  | s :: rest =>
    match infer s, inferAll rest with
    | some p, some ps => some (p :: ps)
    | _, _ => none

end

namespace Genbu

/-- Leaf subcommand baz of the depth-two routing example. -/
def bazLeaf : CLIContext := .mk "baz" "BAZ" []

/-- Subcommand bar of the depth-two routing example, with child baz. -/
def barNode : CLIContext := .mk "bar" "BAR" [bazLeaf]

/-- Root of the depth-two routing example: foo with child bar, bar with
child baz. -/
def fooDeep : CLIContext := .mk "foo" "FOO" [barNode]

/-- Leaf subcommand bar of the flat routing example. -/
def barLeaf : CLIContext := .mk "bar" "BAR" []

/-- Leaf subcommand baz of the flat routing example. -/
def bazFlat : CLIContext := .mk "baz" "BAZ" []

/-- Root of the flat routing example: foo with sibling subcommands bar and
baz, both leaves. -/
def fooFlat : CLIContext := .mk "foo" "FOO" [barLeaf, bazFlat]

/-- The sole param of the long-option example: canonical name value,
spelling double-dash value, parsing one integer token. -/
def valueParam : Param :=
  { name := "value".data, optargs := ["--value".data], parse := One parseIntTok
  , count := .fin 1, resolve := fun _ b => b }

/-- Param list of the long-option example. -/
def paramsValue : List Param := [valueParam]

/-- Required parameter names of the long-option example callback. -/
def requiredValue : List Token := ["value".data]

/-- Positional param a of the missing-argument example. -/
def paramA : Param :=
  { name := ['a'], optargs := [['a']], parse := One parseIntTok
  , count := .fin 1, resolve := fun _ b => b }

/-- Option param b of the missing-argument example, spelled -b. -/
def paramB : Param :=
  { name := ['b'], optargs := [['-', 'b']], parse := One parseIntTok
  , count := .fin 1, resolve := fun _ b => b }

/-- Option param c of the missing-argument example, spelled double-dash c. -/
def paramC : Param :=
  { name := ['c'], optargs := [['-', '-', 'c']], parse := One parseIntTok
  , count := .fin 1, resolve := fun _ b => b }

/-- Param list of the missing-argument example. -/
def paramsABC : List Param := [paramA, paramB, paramC]

/-- Required parameter names of the missing-argument example callback. -/
def requiredABC : List Token := [['a'], ['b'], ['c']]

end Genbu

/-- Classifier vocabulary of the stacked-short-option example: short options
a, b and c, where a consumes one argument token and b and c are flags. -/
def specStack : ClassSpec :=
  { shorts := ['a', 'b', 'c']
  , longs := []
  , countS := fun c => if c = 'a' then .fin 1 else .fin 0
  , countL := fun _ => .fin 0 }

/-!
Theorems.  Helper lemmas come first, then one theorem per claim, each with
its witness or counterexample where the claim calls for one.
-/

/-- C1: the claim says subcommand routing descends one level per matched
token, matching each successive token against the children of the most
recently matched context.  The code matches every token against the
subparsers of the context parse was invoked on: on the depth-two tree foo,
bar, baz with argv bar baz, the routing loop of CLInterface.parse stops
after bar and leaves baz unconsumed, while the routing the claim describes
reaches baz with nothing left. -/
theorem climux_c1_routing_never_descends :
    Genbu.parseCommands Genbu.fooDeep ["bar", "baz"] = ([Genbu.barNode], ["baz"])
    ∧ Genbu.routeDescend Genbu.fooDeep ["bar", "baz"] = (Genbu.bazLeaf, []) :=
  ⟨rfl, rfl⟩

/-- C2: the claim says a parse pairs the final mapping with the deepest
matched context and that call runs that context's callback.  On the flat
tree foo with sibling leaves bar and baz and argv bar baz, the routing loop
matches both tokens, optargs are checked against the last matched context
baz, yet Namespace receives route[0], so call runs the callback of bar, the
first matched context, not of the deepest. -/
theorem climux_c2_call_runs_first_matched_callback :
    Genbu.callCli Genbu.fooFlat ["bar", "baz"] = .ok "BAR"
    ∧ (Genbu.parseCommands Genbu.fooFlat ["bar", "baz"]).1.map Genbu.CLIContext.name
        = ["bar", "baz"] :=
  ⟨rfl, rfl⟩

/-- A list without duplicates filters to the singleton of an element exactly
when that element passes the filter and every member passing the filter
equals it. -/
theorem filter_eq_singleton_iff {α : Type} {p : α → Bool} {l : List α}
    (hnd : l.Nodup) (a : α) :
    l.filter p = [a] ↔ a ∈ l ∧ p a = true ∧ ∀ b ∈ l, p b = true → b = a := by
  constructor
  · intro h
    have ha : a ∈ l.filter p := by rw [h]; exact List.mem_singleton_self a
    rw [List.mem_filter] at ha
    refine ⟨ha.1, ha.2, ?_⟩
    intro b hb hpb
    have hbf : b ∈ l.filter p := List.mem_filter.mpr ⟨hb, hpb⟩
    rw [h] at hbf
    exact List.mem_singleton.mp hbf
  · rintro ⟨ha, hpa, huni⟩
    have hmem : a ∈ l.filter p := List.mem_filter.mpr ⟨ha, hpa⟩
    have hall : ∀ x ∈ l.filter p, x = a := by
      intro x hx
      rw [List.mem_filter] at hx
      exact huni x hx.1 hx.2
    have hndf : (l.filter p).Nodup := hnd.filter p
    cases hf : l.filter p with
    | nil => rw [hf] at hmem; cases hmem
    | cons x xs =>
      rw [hf] at hall hndf hmem
      have hx : x = a := hall x (List.mem_cons_self x xs)
      subst hx
      cases xs with
      | nil => rfl
      | cons y ys =>
        have hy : y = x := hall y (by simp)
        subst hy
        rw [List.nodup_cons] at hndf
        exact absurd (List.mem_cons_self y ys) hndf.1

/-- Characterization of CLInterface.expand on double-dash spellings over a
duplicate-free option set: it returns o exactly when o is the sole declared
option having the given spelling as a prefix. -/
theorem genbu_expand_ok_iff (options : List Token) (pre o : Token)
    (hnd : options.Nodup) (hpre : pre.take 2 = ['-', '-']) :
    Genbu.expand options pre = .ok o ↔
      o ∈ options ∧ pre <+: o ∧ ∀ b ∈ options, pre <+: b → b = o := by
  have hkey : (options.filter (fun x => pre.isPrefixOf x) = [o]) ↔
      (o ∈ options ∧ pre <+: o ∧ ∀ b ∈ options, pre <+: b → b = o) := by
    rw [filter_eq_singleton_iff hnd o]
    simp only [List.isPrefixOf_iff_prefix]
  unfold Genbu.expand
  rw [if_neg (not_not_intro hpre)]
  constructor
  · intro h
    cases hf : options.filter (fun x => pre.isPrefixOf x) with
    | nil => rw [hf] at h; cases h
    | cons x xs =>
      cases xs with
      | nil =>
        rw [hf] at h
        have hxo : x = o := by
          simpa using h
        rw [← hkey, hf, hxo]
      | cons y ys => rw [hf] at h; cases h
  · intro hR
    rw [hkey.mpr hR]

/-- CLInterface.expand on a double-dash spelling errors with UnknownOption
naming the spelling whenever no declared option has it as a prefix or two
distinct declared options both have it as a prefix. -/
theorem genbu_expand_error_of (options : List Token) (pre : Token)
    (hpre : pre.take 2 = ['-', '-'])
    (h : (∀ b ∈ options, ¬ pre <+: b) ∨
      ∃ o₁ ∈ options, ∃ o₂ ∈ options, o₁ ≠ o₂ ∧ pre <+: o₁ ∧ pre <+: o₂) :
    Genbu.expand options pre = .error (.unknownOption pre) := by
  unfold Genbu.expand
  rw [if_neg (not_not_intro hpre)]
  cases hf : options.filter (fun x => pre.isPrefixOf x) with
  | nil => rfl
  | cons x xs =>
    cases xs with
    | cons y ys => rfl
    | nil =>
      exfalso
      have hx : x ∈ options ∧ pre <+: x := by
        have hm : x ∈ options.filter (fun x => pre.isPrefixOf x) := by
          rw [hf]; exact List.mem_singleton_self x
        rw [List.mem_filter] at hm
        exact ⟨hm.1, List.isPrefixOf_iff_prefix.mp hm.2⟩
      rcases h with hnone | ⟨o₁, h1, o₂, h2, hne, hp1, hp2⟩
      · exact hnone x hx.1 hx.2
      · have m1 : o₁ ∈ options.filter (fun x => pre.isPrefixOf x) :=
          List.mem_filter.mpr ⟨h1, List.isPrefixOf_iff_prefix.mpr hp1⟩
        have m2 : o₂ ∈ options.filter (fun x => pre.isPrefixOf x) :=
          List.mem_filter.mpr ⟨h2, List.isPrefixOf_iff_prefix.mpr hp2⟩
        rw [hf] at m1 m2
        exact hne ((List.mem_singleton.mp m1).trans (List.mem_singleton.mp m2).symm)

/-- Characterization of OptArgSpec.expand over a duplicate-free long-option
set: it returns o exactly when o is the sole declared long option having the
given string as a prefix. -/
theorem tortoise_expand_ok_iff (longs : List Token) (pre o : Token)
    (hnd : longs.Nodup) :
    Tortoise.expand longs pre = .ok o ↔
      o ∈ longs ∧ pre <+: o ∧ ∀ b ∈ longs, pre <+: b → b = o := by
  have hkey : (longs.filter (fun x => pre.isPrefixOf x) = [o]) ↔
      (o ∈ longs ∧ pre <+: o ∧ ∀ b ∈ longs, pre <+: b → b = o) := by
    rw [filter_eq_singleton_iff hnd o]
    simp only [List.isPrefixOf_iff_prefix]
  unfold Tortoise.expand
  constructor
  · intro h
    cases hf : longs.filter (fun x => pre.isPrefixOf x) with
    | nil => rw [hf] at h; cases h
    | cons x xs =>
      cases xs with
      | nil =>
        rw [hf] at h
        have hxo : x = o := by simpa using h
        rw [← hkey, hf, hxo]
      | cons y ys => rw [hf] at h; cases h
  · intro hR
    rw [hkey.mpr hR]

/-- OptArgSpec.expand errors with UnknownOption naming the dashed token
whenever no long option has the string as a prefix or two distinct long
options both have it as a prefix. -/
theorem tortoise_expand_error_of (longs : List Token) (pre : Token)
    (h : (∀ b ∈ longs, ¬ pre <+: b) ∨
      ∃ o₁ ∈ longs, ∃ o₂ ∈ longs, o₁ ≠ o₂ ∧ pre <+: o₁ ∧ pre <+: o₂) :
    Tortoise.expand longs pre = .error (.unknownOption (['-', '-'] ++ pre)) := by
  unfold Tortoise.expand
  cases hf : longs.filter (fun x => pre.isPrefixOf x) with
  | nil => rfl
  | cons x xs =>
    cases xs with
    | cons y ys => rfl
    | nil =>
      exfalso
      have hx : x ∈ longs ∧ pre <+: x := by
        have hm : x ∈ longs.filter (fun x => pre.isPrefixOf x) := by
          rw [hf]; exact List.mem_singleton_self x
        rw [List.mem_filter] at hm
        exact ⟨hm.1, List.isPrefixOf_iff_prefix.mp hm.2⟩
      rcases h with hnone | ⟨o₁, h1, o₂, h2, hne, hp1, hp2⟩
      · exact hnone x hx.1 hx.2
      · have m1 : o₁ ∈ longs.filter (fun x => pre.isPrefixOf x) :=
          List.mem_filter.mpr ⟨h1, List.isPrefixOf_iff_prefix.mpr hp1⟩
        have m2 : o₂ ∈ longs.filter (fun x => pre.isPrefixOf x) :=
          List.mem_filter.mpr ⟨h2, List.isPrefixOf_iff_prefix.mpr hp2⟩
        rw [hf] at m1 m2
        exact hne ((List.mem_singleton.mp m1).trans (List.mem_singleton.mp m2).symm)

/-- C5: prefix expansion, in genbu CLInterface.expand and in tortoise
OptArgSpec.expand, returns the unique declared long option having the given
string as a prefix when exactly one exists, and raises UnknownOption naming
the offending token when zero or more than one declared long option has it
as a prefix. -/
theorem climux_c5_prefix_expansion_unique :
    (∀ (options : List Token) (pre o : Token), options.Nodup →
        pre.take 2 = ['-', '-'] →
        (Genbu.expand options pre = .ok o ↔
          o ∈ options ∧ pre <+: o ∧ ∀ b ∈ options, pre <+: b → b = o))
    ∧ (∀ (options : List Token) (pre : Token), pre.take 2 = ['-', '-'] →
        ((∀ b ∈ options, ¬ pre <+: b) ∨
          ∃ o₁ ∈ options, ∃ o₂ ∈ options, o₁ ≠ o₂ ∧ pre <+: o₁ ∧ pre <+: o₂) →
        Genbu.expand options pre = .error (.unknownOption pre))
    ∧ (∀ (longs : List Token) (pre o : Token), longs.Nodup →
        (Tortoise.expand longs pre = .ok o ↔
          o ∈ longs ∧ pre <+: o ∧ ∀ b ∈ longs, pre <+: b → b = o))
    ∧ (∀ (longs : List Token) (pre : Token),
        ((∀ b ∈ longs, ¬ pre <+: b) ∨
          ∃ o₁ ∈ longs, ∃ o₂ ∈ longs, o₁ ≠ o₂ ∧ pre <+: o₁ ∧ pre <+: o₂) →
        Tortoise.expand longs pre = .error (.unknownOption (['-', '-'] ++ pre))) :=
  ⟨fun options pre o hnd hpre => genbu_expand_ok_iff options pre o hnd hpre,
   fun options pre hpre h => genbu_expand_error_of options pre hpre h,
   fun longs pre o hnd => tortoise_expand_ok_iff longs pre o hnd,
   fun longs pre h => tortoise_expand_error_of longs pre h⟩

/-- C5 witness: with declared options double-dash bar and double-dash baz,
the ambiguous spelling double-dash ba errors in both expanders and the full
spelling double-dash bar resolves uniquely in genbu. -/
theorem climux_c5_prefix_expansion_unique_witness :
    Genbu.expand ["--bar".data, "--baz".data] "--ba".data
      = .error (.unknownOption "--ba".data)
    ∧ Tortoise.expand ["bar".data, "baz".data] "ba".data
      = .error (.unknownOption (['-', '-'] ++ "ba".data))
    ∧ Genbu.expand ["--bar".data, "--baz".data] "--bar".data = .ok "--bar".data := by
  refine ⟨?_, ?_, ?_⟩
  · exact climux_c5_prefix_expansion_unique.2.1 _ _ (by decide)
      (Or.inr ⟨"--bar".data, by decide, "--baz".data, by decide, by decide, by decide, by decide⟩)
  · exact climux_c5_prefix_expansion_unique.2.2.2 _ _
      (Or.inr ⟨"bar".data, by decide, "baz".data, by decide, by decide, by decide, by decide⟩)
  · exact (climux_c5_prefix_expansion_unique.1 _ _ _ (by decide) (by decide)).mpr
      ⟨by decide, by decide, by decide⟩

/-- C9: when one declared long option is a proper prefix of another,
expanding the exact spelling of the shorter one raises UnknownOption in both
expanders: expansion requires exactly one candidate and an exact match gets
no precedence over a longer candidate. -/
theorem climux_c9_exact_match_no_precedence :
    (∀ (options : List Token) (o₁ o₂ : Token),
        o₁ ∈ options → o₂ ∈ options → o₁ ≠ o₂ → o₁.take 2 = ['-', '-'] → o₁ <+: o₂ →
        Genbu.expand options o₁ = .error (.unknownOption o₁))
    ∧ (∀ (longs : List Token) (o₁ o₂ : Token),
        o₁ ∈ longs → o₂ ∈ longs → o₁ ≠ o₂ → o₁ <+: o₂ →
        Tortoise.expand longs o₁ = .error (.unknownOption (['-', '-'] ++ o₁))) :=
  ⟨fun options o₁ o₂ h1 h2 hne hpre hp =>
    genbu_expand_error_of options o₁ hpre
      (Or.inr ⟨o₁, h1, o₂, h2, hne, List.prefix_refl o₁, hp⟩),
   fun longs o₁ o₂ h1 h2 hne hp =>
    tortoise_expand_error_of longs o₁
      (Or.inr ⟨o₁, h1, o₂, h2, hne, List.prefix_refl o₁, hp⟩)⟩

/-- C9 witness: with declared options double-dash bar and double-dash barn,
expanding the exact spelling double-dash bar errors in both expanders. -/
theorem climux_c9_exact_match_no_precedence_witness :
    Genbu.expand ["--bar".data, "--barn".data] "--bar".data
      = .error (.unknownOption "--bar".data)
    ∧ Tortoise.expand ["bar".data, "barn".data] "bar".data
      = .error (.unknownOption (['-', '-'] ++ "bar".data)) :=
  ⟨climux_c9_exact_match_no_precedence.1 _ "--bar".data "--barn".data
      (by decide) (by decide) (by decide) (by decide) (by decide),
   climux_c9_exact_match_no_precedence.2 _ "bar".data "barn".data
      (by decide) (by decide) (by decide) (by decide)⟩

/-- With a running value v, renameAux keeps the non-matching occurrences and
appends the canonical name with the matching values folded onto v. -/
theorem renameAux_some_eq {α β : Type} [DecidableEq α]
    (name : α) (names : List α) (resolve : β → β → β) :
    ∀ (l : List (α × β)) (v : β),
      Genbu.renameAux name names resolve l (some v)
        = l.filter (fun p => decide (p.1 ∉ names))
          ++ [(name,
              ((l.filter (fun p => decide (p.1 ∈ names))).map Prod.snd).foldl resolve v)] := by
  intro l
  induction l with
  | nil => intro v; simp [Genbu.renameAux]
  | cons hd tl ih =>
    intro v
    by_cases hm : hd.1 ∈ names
    · simpa [Genbu.renameAux, hm, List.filter_cons] using ih (resolve v hd.2)
    · simpa [Genbu.renameAux, hm, List.filter_cons] using ih v

/-- The rename function of genbu/cli.py equals its declarative description:
non-matching occurrences pass through unchanged in order and the matching
values, if any, are folded left to right with the resolver, the first one
standing alone, and appended once under the canonical name. -/
theorem rename_eq_filter_fold {α β : Type} [DecidableEq α]
    (optargs : List (α × β)) (name : α) (names : List α) (resolve : β → β → β) :
    Genbu.rename optargs name names resolve
      = optargs.filter (fun p => decide (p.1 ∉ names))
        ++ (match (optargs.filter (fun p => decide (p.1 ∈ names))).map Prod.snd with
            | [] => []
            | v :: vs => [(name, vs.foldl resolve v)]) := by
  induction optargs with
  | nil => simp [Genbu.rename, Genbu.renameAux]
  | cons hd tl ih =>
    by_cases hm : hd.1 ∈ names
    · simp only [Genbu.rename, Genbu.renameAux, if_pos hm] at *
      rw [renameAux_some_eq]
      simp [List.filter_cons, hm]
    · simp only [Genbu.rename, Genbu.renameAux, if_neg hm] at *
      rw [ih]
      simp [List.filter_cons, hm]

/-- Keys after a dict insertion: an existing key leaves the key list alone,
a new key is appended. -/
theorem dictInsert_keys {α β : Type} [DecidableEq α]
    (d : List (α × β)) (k : α) (v : β) :
    (dictInsert d k v).map Prod.fst
      = if k ∈ d.map Prod.fst then d.map Prod.fst else d.map Prod.fst ++ [k] := by
  induction d with
  | nil => simp [dictInsert]
  | cons hd tl ih =>
    by_cases hk : hd.1 = k
    · simp [dictInsert, hk]
    · simp only [dictInsert, if_neg hk, List.map_cons, ih]
      by_cases hmem : k ∈ tl.map Prod.fst
      · simp [hmem, hk, Ne.symm hk]
      · simp [hmem, hk, Ne.symm hk]

/-- Dict insertion preserves duplicate-freedom of the keys. -/
theorem dictInsert_keys_nodup {α β : Type} [DecidableEq α]
    (d : List (α × β)) (k : α) (v : β) (hnd : (d.map Prod.fst).Nodup) :
    ((dictInsert d k v).map Prod.fst).Nodup := by
  rw [dictInsert_keys]
  by_cases hmem : k ∈ d.map Prod.fst
  · simpa [hmem] using hnd
  · rw [if_neg hmem, List.nodup_append]
    refine ⟨hnd, List.nodup_singleton k, ?_⟩
    intro a ha hak
    rw [List.mem_singleton] at hak
    exact hmem (hak ▸ ha)

/-- The keys of a Python dict built from any pair list are duplicate-free. -/
theorem pyDict_keys_nodup {α β : Type} [DecidableEq α] (l : List (α × β)) :
    ((pyDict l).map Prod.fst).Nodup := by
  suffices h : ∀ (d : List (α × β)), (d.map Prod.fst).Nodup →
      ((l.foldl (fun d kv => dictInsert d kv.1 kv.2) d).map Prod.fst).Nodup by
    exact h [] (by simp)
  induction l with
  | nil => intro d hd; simpa using hd
  | cons hd tl ih =>
    intro d hnd
    exact ih (dictInsert d hd.1 hd.2) (dictInsert_keys_nodup d hd.1 hd.2 hnd)

/-- C7: renaming folds the values of exactly the occurrences whose spelling
is one of the declared names left to right with the resolver (the first
matching value stands alone, each subsequent one combines with the running
result), passes all other occurrences through unchanged, and the final
mapping the Renamer produces holds at most one entry per name. -/
theorem climux_c7_rename_folds_and_final_mapping_unique :
    (∀ (α β : Type) [DecidableEq α]
        (optargs : List (α × β)) (name : α) (names : List α) (resolve : β → β → β),
      Genbu.rename optargs name names resolve
        = optargs.filter (fun p => decide (p.1 ∉ names))
          ++ (match (optargs.filter (fun p => decide (p.1 ∈ names))).map Prod.snd with
              | [] => []
              | v :: vs => [(name, vs.foldl resolve v)]))
    ∧ (∀ (params : List Genbu.Param) (optargs : List (Token × Int)),
        ((Genbu.Renamer params optargs).map Prod.fst).Nodup) :=
  ⟨fun _ _ _ optargs name names resolve => rename_eq_filter_fold optargs name names resolve,
   fun _ _ => pyDict_keys_nodup _⟩

/-- C7 witness: renaming occurrences of -a, -b and -c onto the name x with
addition folds 4, 5 and 6 into 15, keeps the unrelated occurrence, and the
mapping keys of a Renamer run are duplicate-free. -/
theorem climux_c7_rename_witness :
    Genbu.rename
        [(['-', 'a'], (4 : Int)), (['y'], 9), (['-', 'b'], 5), (['-', 'c'], 6)]
        ['x'] [['-', 'a'], ['-', 'b'], ['-', 'c']] (fun a b => a + b)
      = [(['y'], 9), (['x'], 15)]
    ∧ ((Genbu.Renamer Genbu.paramsABC
          [(['-', 'b'], 2), (['-', '-', 'c'], 3), (['a'], 1)]).map Prod.fst).Nodup := by
  constructor
  · rw [climux_c7_rename_folds_and_final_mapping_unique.1 Token Int]
    rfl
  · exact climux_c7_rename_folds_and_final_mapping_unique.2 Genbu.paramsABC _

/-- Core of the comparison of genbu rename with tortoise merge: when the
canonical name is among the alias names the two matching tests agree, so the
two accumulator loops compute the same list for every accumulator. -/
theorem renameAux_eq_mergeOneAux {α β : Type} [DecidableEq α]
    (name : α) (names : List α) (f : β → β → β) (h : name ∈ names) :
    ∀ (l : List (α × β)) (acc : Option β),
      Genbu.renameAux name names f l acc = Tortoise.mergeOneAux name names f l acc := by
  intro l
  induction l with
  | nil => intro acc; cases acc <;> rfl
  | cons hd tl ih =>
    intro acc
    by_cases hm : hd.1 ∈ names
    · have hor : hd.1 = name ∨ hd.1 ∈ names := Or.inr hm
      simp only [Genbu.renameAux, Tortoise.mergeOneAux, if_pos hm, if_pos hor]
      exact ih _
    · have hor : ¬ (hd.1 = name ∨ hd.1 ∈ names) := by
        rintro (rfl | hmem)
        · exact hm h
        · exact hm hmem
      simp only [Genbu.renameAux, Tortoise.mergeOneAux, if_neg hm, if_neg hor]
      rw [ih acc]

/-- C10 as amended: genbu rename and tortoise Merger._merge_one compute the
same result whenever the canonical name is among the alias names. -/
theorem climux_c10_rename_eq_merge_of_canonical_aliased
    {α β : Type} [DecidableEq α]
    (opts : List (α × β)) (name : α) (names : List α) (f : β → β → β)
    (h : name ∈ names) :
    Genbu.rename opts name names f = Tortoise.merge_one opts name names f :=
  renameAux_eq_mergeOneAux name names f h opts none

/-- C10 witness: with the canonical name x listed among the aliases, rename
and merge agree on a list with two x occurrences and one stranger. -/
theorem climux_c10_rename_eq_merge_witness :
    Genbu.rename [("x", 1), ("y", 2), ("x", 3)] "x" ["x", "-a"] Nat.add
      = Tortoise.merge_one [("x", 1), ("y", 2), ("x", 3)] "x" ["x", "-a"] Nat.add :=
  climux_c10_rename_eq_merge_of_canonical_aliased _ _ _ _ (by decide)

/-- C10 counterexample: on an occurrence list holding the canonical name x
while the alias collection is empty, genbu rename passes both x occurrences
through unchanged but tortoise Merger._merge_one folds them, so the two
functions disagree. -/
theorem climux_c10_rename_merge_counterexample :
    Genbu.rename [("x", 1), ("y", 2), ("x", 3)] "x" ([] : List String) Nat.add
      ≠ Tortoise.merge_one [("x", 1), ("y", 2), ("x", 3)] "x" ([] : List String) Nat.add := by
  decide

/-- The remainder take leaves is never longer than the input deque. -/
theorem take_snd_length_le (cnt : Count) (l : List Token) :
    (take cnt l).2.length ≤ l.length := by
  induction l generalizing cnt with
  | nil => simp [take]
  | cons t rest ih =>
    by_cases hd : startsDash t
    · simp [take, hd]
    · by_cases hp : cnt.isPos
      · have := ih cnt.dec
        simp only [take, hd, hp]
        simp only [Bool.false_eq_true, if_false, if_true]
        calc (take cnt.dec rest).2.length ≤ rest.length := ih cnt.dec
          _ ≤ rest.length + 1 := Nat.le_succ _
      · simp [take, hd, hp]

theorem classifyGo_fuel (spec : ClassSpec) :
    ∀ (f f' : Nat) (argv : List Token), argv.length ≤ f → argv.length ≤ f' →
      classifyGo spec f argv = classifyGo spec f' argv := by
  intro f
  induction f with
  | zero =>
    intro f' argv h _
    have hargv : argv = [] := List.eq_nil_of_length_eq_zero (Nat.le_zero.mp h)
    subst hargv
    cases f' <;> rfl
  | succ f ih =>
    intro f' argv h h'
    cases argv with
    | nil => cases f' <;> rfl
    | cons tok rest =>
      cases f' with
      | zero => simp at h'
      | succ f'' =>
        have hrest : rest.length ≤ f := by
          simpa using Nat.le_of_succ_le_succ (by simpa using h)
        have hrest' : rest.length ≤ f'' := by
          simpa using Nat.le_of_succ_le_succ (by simpa using h')
        simp only [classifyGo]
        by_cases h2 : tok.take 2 = ['-', '-']
        · rw [if_pos h2, if_pos h2]
          rcases hsp : splitOnEq (tok.drop 2) with ⟨nm, arg?⟩
          cases arg? with
          | some arg =>
            simp only [hsp]
            cases hex : spec.expandL nm with
            | error e => simp only [hex]
            | ok full =>
              simp only [hex]
              rw [ih f'' rest hrest hrest']
          | none =>
            simp only [hsp]
            cases hex : spec.expandL nm with
            | error e => simp only [hex]
            | ok full =>
              simp only [hex]
              rcases htk : take (spec.countL full) rest with ⟨cap, rest'⟩
              simp only [htk]
              have hlen : rest'.length ≤ rest.length := by
                have := take_snd_length_le (spec.countL full) rest
                rw [htk] at this
                exact this
              rw [ih f'' rest' (le_trans hlen hrest) (le_trans hlen hrest')]
        · rw [if_neg h2, if_neg h2]
          by_cases h1 : tok.take 1 = ['-'] ∧ 2 ≤ tok.length
          · rw [if_pos h1, if_pos h1]
            cases hss : scanShorts spec (tok.drop 1) with
            | error e => simp only [hss]
            | ok pr =>
              rcases pr with ⟨occs, pend⟩
              cases pend with
              | none =>
                simp only [hss]
                rw [ih f'' rest hrest hrest']
              | some pr2 =>
                rcases pr2 with ⟨sp, cnt⟩
                simp only [hss]
                rcases htk : take cnt rest with ⟨cap, rest'⟩
                simp only [htk]
                have hlen : rest'.length ≤ rest.length := by
                  have := take_snd_length_le cnt rest
                  rw [htk] at this
                  exact this
                rw [ih f'' rest' (le_trans hlen hrest) (le_trans hlen hrest')]
          · rw [if_neg h1, if_neg h1]
            rw [ih f'' rest hrest hrest']

/-- Any fuel at least the length of the token list computes the
classification. -/
theorem classifyGo_eq_classify (spec : ClassSpec) (f : Nat) (argv : List Token)
    (h : argv.length ≤ f) : classifyGo spec f argv = classify spec argv :=
  classifyGo_fuel spec f argv.length argv h (le_refl _)

/-- Splitting on the equals sign finds the first one. -/
theorem splitOnEq_append (nm arg : List Char) (h : '=' ∉ nm) :
    splitOnEq (nm ++ '=' :: arg) = (nm, some arg) := by
  induction nm with
  | nil => simp [splitOnEq]
  | cons c cs ih =>
    have hc : ¬ c = '=' := fun hh => h (hh ▸ List.mem_cons_self c cs)
    simp [splitOnEq, hc, ih (fun hm => h (List.mem_cons_of_mem c hm))]

/-- C3: the classifier scans a single-dash token left to right as stacked
short options; a zero-bound short option contributes a flag occurrence and
the scan continues, a nonzero-bound one consumes the rest of the current
token as its single captured argument and stops the scan, and when no
characters remain the subsequent tokens are captured per its bound as for
long options; the concrete token dash a 4 yields option a with argument 4. -/
theorem climux_c3_stacked_short_options
    (spec : ClassSpec) (flags : List Char) (o : Char) (rest : List Token)
    (hflags : ∀ c ∈ flags, c ∈ spec.shorts ∧ spec.countS c = .fin 0)
    (ho : o ∈ spec.shorts) (hno : spec.countS o ≠ .fin 0) (hdash : ¬ o = '-') :
    (∀ restC : List Char, restC ≠ [] →
      scanShorts spec (flags ++ o :: restC)
        = .ok (flags.map (fun c => (['-', c], [])) ++ [(['-', o], [restC])], none))
    ∧ scanShorts spec (flags ++ [o])
        = .ok (flags.map (fun c => (['-', c], [])), some (['-', o], spec.countS o))
    ∧ (classify spec (['-', o] :: rest)
        = match classify spec (take (spec.countS o) rest).2 with
          | .error e => .error e
          | .ok r =>
            .ok ⟨(['-', o], (take (spec.countS o) rest).1) :: r.options, r.arguments⟩)
    ∧ classify specStack ["-a4".data] = .ok ⟨[(['-', 'a'], [['4']])], []⟩
    ∧ classify specStack ["-cba".data]
        = .ok ⟨[(['-', 'c'], []), (['-', 'b'], []), (['-', 'a'], [])], []⟩ := by
  refine ⟨?_, ?_, ?_, rfl, rfl⟩
  · intro restC hrc
    clear rest
    induction flags with
    | nil =>
      cases hcnt : spec.countS o with
      | fin n =>
        cases n with
        | zero => exact absurd hcnt hno
        | succ m => simp [scanShorts, ho, hcnt, hrc]
      | inf => simp [scanShorts, ho, hcnt, hrc]
    | cons c cs ih =>
      have hc := hflags c (List.mem_cons_self c cs)
      have ihs := ih (fun x hx => hflags x (List.mem_cons_of_mem c hx))
      simp only [List.cons_append, scanShorts, if_pos hc.1, hc.2, List.append_eq]
      rw [ihs]
      rfl
  · clear rest
    induction flags with
    | nil =>
      cases hcnt : spec.countS o with
      | fin n =>
        cases n with
        | zero => exact absurd hcnt hno
        | succ m => simp [scanShorts, ho, hcnt]
      | inf => simp [scanShorts, ho, hcnt]
    | cons c cs ih =>
      have hc := hflags c (List.mem_cons_self c cs)
      have ihs := ih (fun x hx => hflags x (List.mem_cons_of_mem c hx))
      simp only [List.cons_append, scanShorts, if_pos hc.1, hc.2, List.append_eq]
      rw [ihs]
      rfl
  · show classifyGo spec (rest.length + 1) (['-', o] :: rest) = _
    simp only [classifyGo]
    have hcond2 : ¬ (['-', o] : Token).take 2 = ['-', '-'] := by
      simp [hdash]
    rw [if_neg hcond2]
    have hcond1 : (['-', o] : Token).take 1 = ['-'] ∧ 2 ≤ (['-', o] : Token).length :=
      ⟨rfl, by simp⟩
    rw [if_pos hcond1]
    have hscan : scanShorts spec ((['-', o] : Token).drop 1)
        = .ok ([], some (['-', o], spec.countS o)) := by
      cases hcnt : spec.countS o with
      | fin n =>
        cases n with
        | zero => exact absurd hcnt hno
        | succ m => simp [scanShorts, ho, hcnt]
      | inf => simp [scanShorts, ho, hcnt]
    rw [hscan]
    rcases htk : take (spec.countS o) rest with ⟨cap, rest'⟩
    simp only [htk]
    have hlen : rest'.length ≤ rest.length := by
      have := take_snd_length_le (spec.countS o) rest
      rw [htk] at this
      exact this
    rw [classifyGo_eq_classify spec rest.length rest' hlen]
    cases classify spec rest' <;> simp

/-- C3 witness: with a taking one argument and b, c flags, the scan of
b c a 4 yields the two flags then option a capturing 4 inside the token, and
classifying dash a followed by the token 7 captures 7 from the stream. -/
theorem climux_c3_stacked_short_options_witness :
    scanShorts specStack "bca4".data
      = .ok ([(['-', 'b'], []), (['-', 'c'], []), (['-', 'a'], [['4']])], none)
    ∧ classify specStack [['-', 'a'], ['7']] = .ok ⟨[(['-', 'a'], [['7']])], []⟩ := by
  constructor
  · have h := (climux_c3_stacked_short_options specStack ['b', 'c'] 'a' []
        (by decide) (by decide) (by decide) (by decide)).1 ['4'] (by decide)
    exact h
  · have h := (climux_c3_stacked_short_options specStack [] 'a' [['7']]
        (by decide) (by decide) (by decide) (by decide)).2.2.1
    exact h.trans rfl

/-- C4: the classifier strips the double-dash prefix, splits once on the
equals sign, expands the left side against the long-option set and treats
the right side as a single pre-captured argument that short-circuits further
capture for that occurrence; against a sole declared double-dash value
option, the inputs value equals five, valu equals six and val equals seven
all bind the parameter value to 5, 6 and 7. -/
theorem climux_c4_long_option_equals_form
    (spec : ClassSpec) (nm arg : List Char) (rest : List Token) (full : Token)
    (hnm : '=' ∉ nm) (hex : spec.expandL nm = .ok full) :
    (classify spec ((['-', '-'] ++ nm ++ '=' :: arg) :: rest)
      = match classify spec rest with
        | .error e => .error e
        | .ok r => .ok ⟨(['-', '-'] ++ full, [arg]) :: r.options, r.arguments⟩)
    ∧ Genbu.parse_optargs Genbu.paramsValue Genbu.requiredValue ["--value=5".data]
        = .ok [("value".data, 5)]
    ∧ Genbu.parse_optargs Genbu.paramsValue Genbu.requiredValue ["--valu=6".data]
        = .ok [("value".data, 6)]
    ∧ Genbu.parse_optargs Genbu.paramsValue Genbu.requiredValue ["--val=7".data]
        = .ok [("value".data, 7)] := by
  refine ⟨?_, rfl, rfl, rfl⟩
  show classifyGo spec (rest.length + 1) ((['-', '-'] ++ nm ++ '=' :: arg) :: rest) = _
  simp only [classifyGo]
  have hcond : ((['-', '-'] ++ nm ++ '=' :: arg : Token)).take 2 = ['-', '-'] := rfl
  rw [if_pos hcond]
  have hdrop : ((['-', '-'] ++ nm ++ '=' :: arg : Token)).drop 2 = nm ++ '=' :: arg := rfl
  rw [hdrop, splitOnEq_append nm arg hnm]
  simp only [hex]
  rfl

/-- C4 witness: in the vocabulary of the sole declared double-dash value
option, classifying the abbreviated token valu equals six yields one
occurrence of the expanded spelling with the pre-captured argument 6 and no
capture from the stream. -/
theorem climux_c4_long_option_equals_form_witness :
    classify (Genbu.specOf Genbu.paramsValue) [['-', '-'] ++ "valu".data ++ '=' :: ['6']]
      = .ok ⟨[("--value".data, [['6']])], []⟩ := by
  have h := (climux_c4_long_option_equals_form (Genbu.specOf Genbu.paramsValue)
      "valu".data ['6'] [] "value".data (by decide) rfl).1
  exact h.trans rfl

/-- The trial binding succeeds and returns the mapping unchanged exactly
when every required parameter name is bound. -/
theorem check_arguments_ok_iff (optargs : List (Token × Int)) (required : List Token) :
    Genbu.check_arguments optargs required = .ok optargs ↔
      ∀ r ∈ required, (lookupA optargs r).isSome := by
  unfold Genbu.check_arguments
  cases hf : required.find? (fun r => (lookupA optargs r).isNone) with
  | none =>
    constructor
    · intro _ r hr
      have hnot := List.find?_eq_none.mp hf r hr
      rcases hl : lookupA optargs r with _ | v
      · rw [hl] at hnot; simp at hnot
      · simp
    · intro _
      rfl
  | some r =>
    constructor
    · intro h
      cases h
    · intro hall
      have hr := List.find?_some hf
      have hmem := List.mem_of_find?_eq_some hf
      have hs := hall r hmem
      rcases hl : lookupA optargs r with _ | v
      · rw [hl] at hs; simp at hs
      · rw [hl] at hr; simp at hr

/-- A MissingArgument error from check_arguments names a required parameter
that the mapping does not bind. -/
theorem check_arguments_error_name (optargs : List (Token × Int))
    (required : List Token) (r : Token)
    (h : Genbu.check_arguments optargs required = .error (.missingArgument r)) :
    r ∈ required ∧ lookupA optargs r = none := by
  unfold Genbu.check_arguments at h
  cases hf : required.find? (fun x => (lookupA optargs x).isNone) with
  | none => rw [hf] at h; cases h
  | some r' =>
    rw [hf] at h
    have : r' = r := by
      injection h with h1
      injection h1
    subst this
    have hr := List.find?_some hf
    have hmem := List.mem_of_find?_eq_some hf
    refine ⟨hmem, ?_⟩
    rcases hl : lookupA optargs r' with _ | v
    · rfl
    · rw [hl] at hr; simp at hr

/-- When some required parameter is unbound, check_arguments reports a
MissingArgument naming such a parameter. -/
theorem check_arguments_missing (optargs : List (Token × Int)) (required : List Token)
    (h : ∃ r ∈ required, lookupA optargs r = none) :
    ∃ r ∈ required, lookupA optargs r = none ∧
      Genbu.check_arguments optargs required = .error (.missingArgument r) := by
  cases hf : required.find? (fun x => (lookupA optargs x).isNone) with
  | none =>
    exfalso
    rcases h with ⟨r, hmem, hnone⟩
    have := List.find?_eq_none.mp hf r hmem
    rw [hnone] at this
    simp at this
  | some r =>
    have hr := List.find?_some hf
    have hmem := List.mem_of_find?_eq_some hf
    refine ⟨r, hmem, ?_, ?_⟩
    · rcases hl : lookupA optargs r with _ | v
      · rfl
      · rw [hl] at hr; simp at hr
    · unfold Genbu.check_arguments
      rw [hf]

/-- Trying parsers in order succeeds with v exactly when some parser
succeeds with v and every parser before it fails. -/
theorem firstSome_eq_some_iff (ps : List (Token → Option Value)) (t : Token) (v : Value) :
    firstSome ps t = some v ↔
      ∃ l₁ p l₂, ps = l₁ ++ p :: l₂ ∧ (∀ q ∈ l₁, q t = none) ∧ p t = some v := by
  induction ps with
  | nil =>
    constructor
    · intro h; cases h
    · rintro ⟨l₁, p, l₂, hps, -, -⟩
      cases l₁ <;> simp at hps
  | cons q qs ih =>
    cases hq : q t with
    | some w =>
      simp only [firstSome, hq]
      constructor
      · intro h
        exact ⟨[], q, qs, rfl, by simp, by rw [hq]; exact h⟩
      · rintro ⟨l₁, p, l₂, hps, hnone, hp⟩
        cases l₁ with
        | nil =>
          rw [List.nil_append] at hps
          injection hps with hqp hqs
          rw [← hqp] at hp
          rw [← hp, hq]
        | cons x xs =>
          rw [List.cons_append] at hps
          injection hps with hqx _
          have := hnone x (List.mem_cons_self x xs)
          rw [← hqx] at this
          rw [this] at hq
          cases hq
    | none =>
      simp only [firstSome, hq]
      rw [ih]
      constructor
      · rintro ⟨l₁, p, l₂, hps, hnone, hp⟩
        refine ⟨q :: l₁, p, l₂, by rw [hps, List.cons_append], ?_, hp⟩
        intro x hx
        rcases List.mem_cons.mp hx with rfl | hx2
        · exact hq
        · exact hnone x hx2
      · rintro ⟨l₁, p, l₂, hps, hnone, hp⟩
        cases l₁ with
        | nil =>
          rw [List.nil_append] at hps
          injection hps with hqp _
          rw [← hqp] at hp
          rw [hp] at hq
          cases hq
        | cons x xs =>
          rw [List.cons_append] at hps
          injection hps with _ hqs
          refine ⟨xs, p, l₂, hqs, ?_, hp⟩
          intro y hy
          exact hnone y (List.mem_cons_of_mem x hy)

/-- When every alternative of a union infers a parser, the union infers the
parser trying them in declared order and returning the first success. -/
theorem infer_union_eq (alts : List TypeShape) (ps : List (Token → Option Value))
    (h : inferAll alts = some ps) : infer (.union alts) = some (firstSome ps) := by
  simp [infer, h]

/-- C6: a parser inferred from a union shape tries the declared alternatives
left to right and returns the first success; in particular the union of int
before bool parses the token 0 to the integer zero, while the union of bool
before int parses it to the boolean false, so order-sensitivity holds in
both directions. -/
theorem climux_c6_union_first_success :
    (∀ (alts : List TypeShape) (ps : List (Token → Option Value)),
        inferAll alts = some ps → infer (.union alts) = some (firstSome ps))
    ∧ (∀ (ps : List (Token → Option Value)) (t : Token) (v : Value),
        firstSome ps t = some v ↔
          ∃ l₁ p l₂, ps = l₁ ++ p :: l₂ ∧ (∀ q ∈ l₁, q t = none) ∧ p t = some v)
    ∧ (infer (.union [.int, .bool])).map (fun p => p ['0']) = some (some (.int 0))
    ∧ (infer (.union [.bool, .int])).map (fun p => p ['0']) = some (some (.bool false)) :=
  ⟨fun alts ps h => infer_union_eq alts ps h,
   fun ps t v => firstSome_eq_some_iff ps t v,
   rfl, rfl⟩

/-- C6 witness: the union of int before bool infers the parser trying the
integer primitive first, and on the token 0 that parser succeeds with the
integer zero through the first alternative, the empty prefix failing
vacuously. -/
theorem climux_c6_union_first_success_witness :
    infer (.union [.int, .bool]) = some (firstSome [parseIntV, parse_bool])
    ∧ firstSome [parseIntV, parse_bool] ['0'] = some (.int 0) := by
  constructor
  · exact climux_c6_union_first_success.1 [.int, .bool] [parseIntV, parse_bool] rfl
  · exact (climux_c6_union_first_success.2.1 [parseIntV, parse_bool] ['0'] (.int 0)).mpr
      ⟨[], parseIntV, [parse_bool], rfl, by simp, rfl⟩

/-- C8 counterexample: with required positional a, option dash b and option
double-dash c, the input dash b 1 double-dash c 2 fails with CantParse, not
with MissingArgument naming a as the claim states: the positional param a
parses from an exhausted queue and its One combinator raises CantParse
before check_arguments runs. -/
theorem climux_c8_missing_positional_counterexample :
    Genbu.parse_optargs Genbu.paramsABC Genbu.requiredABC
        [['-', 'b'], ['1'], ['-', '-', 'c'], ['2']] = .error .cantParse
    ∧ Genbu.parse_optargs Genbu.paramsABC Genbu.requiredABC
        [['-', 'b'], ['1'], ['-', '-', 'c'], ['2']] ≠ .error (.missingArgument ['a']) := by
  refine ⟨rfl, ?_⟩
  intro h
  have h2 : (Except.error Err.cantParse : Except Err (List (Token × Int)))
      = .error (.missingArgument ['a']) := by
    rw [← h]
    rfl
  injection h2 with h3
  exact Err.noConfusion h3

/-- C8 as amended: check_arguments returns the mapping unchanged exactly
when every parameter the callback requires is bound, and otherwise raises
MissingArgument naming an absent required parameter; the input 1 dash b 2
double-dash c 3 succeeds with a to 1, b to 2, c to 3, while the input
1 double-dash c 2, missing the option b, fails with MissingArgument naming
b (a missing positional such as a fails earlier with CantParse). -/
theorem climux_c8_binding_check_and_examples :
    (∀ (optargs : List (Token × Int)) (required : List Token),
        (Genbu.check_arguments optargs required = .ok optargs ↔
          ∀ r ∈ required, (lookupA optargs r).isSome)
        ∧ (∀ r : Token,
            Genbu.check_arguments optargs required = .error (.missingArgument r) →
              r ∈ required ∧ lookupA optargs r = none)
        ∧ ((∃ r ∈ required, lookupA optargs r = none) →
            ∃ r ∈ required, lookupA optargs r = none ∧
              Genbu.check_arguments optargs required = .error (.missingArgument r)))
    ∧ Genbu.parse_optargs Genbu.paramsABC Genbu.requiredABC
        [['1'], ['-', 'b'], ['2'], ['-', '-', 'c'], ['3']]
        = .ok [(['a'], 1), (['b'], 2), (['c'], 3)]
    ∧ Genbu.parse_optargs Genbu.paramsABC Genbu.requiredABC
        [['1'], ['-', '-', 'c'], ['2']]
        = .error (.missingArgument ['b']) :=
  ⟨fun optargs required =>
    ⟨check_arguments_ok_iff optargs required,
     fun r h => check_arguments_error_name optargs required r h,
     fun h => check_arguments_missing optargs required h⟩,
   rfl, rfl⟩

/-- C8 witness: a mapping binding a, b and c passes check_arguments
unchanged, and the mapping lacking b is rejected with MissingArgument
naming b. -/
theorem climux_c8_binding_check_witness :
    Genbu.check_arguments [(['a'], 1), (['b'], 2), (['c'], 3)] Genbu.requiredABC
      = .ok [(['a'], 1), (['b'], 2), (['c'], 3)]
    ∧ Genbu.check_arguments [(['a'], 1), (['c'], 2)] Genbu.requiredABC
      = .error (.missingArgument ['b']) := by
  constructor
  · exact ((climux_c8_binding_check_and_examples.1 _ Genbu.requiredABC).1).mpr (by decide)
  · have h := (climux_c8_binding_check_and_examples.1
        [(['a'], 1), (['c'], 2)] Genbu.requiredABC).2.2
        ⟨['b'], by decide, by decide⟩
    rcases h with ⟨r, hmem, hnone, heq⟩
    have hr : r = ['b'] := by
      have hmem2 : r = ['a'] ∨ r = ['b'] ∨ r = ['c'] := by
        simpa [Genbu.requiredABC] using hmem
      rcases hmem2 with rfl | rfl | rfl
      · exact absurd hnone (by decide)
      · rfl
      · exact absurd hnone (by decide)
    rw [← hr]
    exact heq
